import Mathlib

namespace PortfolioHub

/-!
Verification of the portfolio analytics core of portfoliohub4.

The development shallowly embeds the three analytics modules
(`backend/utils/performance_service.py`, `backend/utils/portfolio_analytics.py`
and `backend/utils/yahoo_finance.py`).  Dates are modelled as natural numbers
(calendar days), monetary values and returns as rationals.  Pandas series are
modelled as association lists from dates to values; pandas column operations
(`ffill`, `bfill`, `dropna`, `reindex`, row-wise `sum`) are translated
operation by operation.
-/

/-- A date-indexed series of rational values (model of a pandas `Series`
indexed by dates). -/
abbrev Series := List (Nat × ℚ)

/-- First-match association lookup: the model of indexing a pandas series or
a Python dict by key. -/
def assocGet {κ α : Type} [DecidableEq κ] : List (κ × α) → κ → Option α
  | [], _ => none
  | p :: t, k => if p.1 = k then some p.2 else assocGet t k

/-- Insert a date into a strictly ascending calendar, keeping it ascending
and duplicate free. -/
def insertDate (d : Nat) : List Nat → List Nat
  | [] => [d]
  | e :: t =>
    if d < e then d :: e :: t
    else if d = e then e :: t
    else e :: insertDate d t

/-- The unified calendar: the ascending union of all dates appearing in any
of the given series.  Models the index of `pd.DataFrame(position_series)`
after `sort_index()` in `calculate_portfolio_performance`
(performance_service.py, lines 81-84). -/
def unionCal (ss : List Series) : List Nat :=
  (ss.flatMap (fun s => s.map Prod.fst)).foldr insertDate []

/-- Forward fill with an explicit carry: every empty cell receives the most
recent prior non-empty value (the carry), as pandas `DataFrame.ffill` does
column-wise. -/
def ffillAux (c : Option ℚ) : List (Option ℚ) → List (Option ℚ)
  | [] => []
  | some v :: t => some v :: ffillAux (some v) t
  | none :: t => c :: ffillAux c t

/-- `df.ffill()` on one column. -/
def ffill (l : List (Option ℚ)) : List (Option ℚ) := ffillAux none l

/-- `df.bfill()` on one column: forward fill of the reversed column,
reversed back (each empty cell receives the next following non-empty
value). -/
def bfill (l : List (Option ℚ)) : List (Option ℚ) := (ffillAux none l.reverse).reverse

/-- One column of the aligned table: `ffill` then `bfill`
(performance_service.py, lines 89-92). -/
def fillColumn (l : List (Option ℚ)) : List (Option ℚ) := bfill (ffill l)

/-- The per-series column over the unified calendar: cells with no native
observation are initially empty (`none`), then filled forward/backward. -/
def alignedColumns (ss : List Series) (cal : List Nat) : List (List (Option ℚ)) :=
  ss.map (fun s => fillColumn (cal.map (assocGet s)))

/-- Row `i` of the aligned table collects cell `i` of every column. -/
def tableRows (cols : List (List (Option ℚ))) (n : Nat) : List (List (Option ℚ)) :=
  (List.range n).map (fun i => cols.map (fun c => c.getD i none))

/-- The Aligner of `calculate_portfolio_performance`
(performance_service.py, lines 79-101): build the table of all position
value series over the unified calendar, forward-fill, backward-fill, drop
any row still containing an empty cell, and sum each remaining row into the
portfolio value for that date. -/
def alignValues (ss : List Series) : Series :=
  (((unionCal ss).zip
        (tableRows (alignedColumns ss (unionCal ss)) (unionCal ss).length)).filter
      (fun p => p.2.all Option.isSome)).map
    (fun p => (p.1, (p.2.filterMap id).sum))

/-- A position's value series: close price times quantity
(performance_service.py, lines 72-74: `hist_data['Close'] * quantity`). -/
def positionValues (quantity : ℚ) (prices : Series) : Series :=
  prices.map (fun p => (p.1, p.2 * quantity))

/-! ## ReturnSeries statistics (yahoo_finance.py) -/

/-- Arithmetic mean of a list of rationals (pandas `Series.mean`). -/
def qmean (l : List ℚ) : ℚ := l.sum / l.length

/-- Sample variance with one delta degree of freedom, i.e. pandas
`Series.var()`, the square of `Series.std()`.  The modelled callers only
use it behind a guard of at least two points, where it is exact. -/
def sampleVar (l : List ℚ) : ℚ :=
  ((l.map (fun x => (x - qmean l) ^ 2)).sum) / ((l.length : ℚ) - 1)

/-- Sample covariance (pandas `Series.cov`), ddof = 1. -/
def sampleCov (xy : List (ℚ × ℚ)) : ℚ :=
  ((xy.map (fun p =>
      (p.1 - qmean (xy.map Prod.fst)) * (p.2 - qmean (xy.map Prod.snd)))).sum)
    / ((xy.length : ℚ) - 1)

/-- Outcome of `calculate_sharpe_ratio` under IEEE-754 semantics.  The
`finite` constructor records the exact mean daily excess return and the
exact sample variance of the returns; the float the source returns in that
case is `meanExcess * sqrt 252 / sqrt variance`, irrational in general and
not needed by any claim.  The other constructors are the non-finite floats
that scalar division produces: numpy scalar division by zero emits a
RuntimeWarning and yields ±inf or nan — it does not raise, so the broad
`except` branch returning 0.0 is never taken on this path. -/
inductive SharpeOutcome
  | nan
  | posInf
  | negInf
  | finite (meanExcess variance : ℚ)
deriving DecidableEq

/-- `calculate_sharpe_ratio` (yahoo_finance.py, lines 169-178):
`excess_returns = returns - risk_free_rate / 252`;
`sharpe = excess_returns.mean() / returns.std()` then annualized by the
positive constant `sqrt(252)`, which cannot change a non-finite outcome or
make a finite one non-finite.  Fewer than 2 returns make `std()` NaN
(ddof = 1), hence a NaN result; a zero standard deviation divides the mean
excess return by exactly 0.0. -/
def calculate_sharpe_ratio (returns : List ℚ) (risk_free_rate : ℚ) : SharpeOutcome :=
  if returns.length < 2 then .nan
  else
    if sampleVar returns = 0 then
      if qmean (returns.map (fun r => r - risk_free_rate / 252)) = 0 then .nan
      else if 0 < qmean (returns.map (fun r => r - risk_free_rate / 252)) then .posInf
      else .negInf
    else .finite (qmean (returns.map (fun r => r - risk_free_rate / 252))) (sampleVar returns)

/-- The aligned asset/market table of `calculate_beta` (yahoo_finance.py,
lines 127-149): an outer alignment over all dates of either series
(`pd.DataFrame({'asset': .., 'market': ..})`) followed by `dropna()`,
keeping exactly the dates carrying both an asset and a market return. -/
def betaAligned (asset market : Series) : List (Nat × ℚ × ℚ) :=
  (unionCal [asset, market]).filterMap (fun d =>
    match assocGet asset d, assocGet market d with
    | some x, some y => some (d, x, y)
    | _, _ => none)

/-- `calculate_beta` (yahoo_finance.py, lines 127-149): covariance over
variance on the aligned table; neutral 1.0 for fewer than 2 overlapping
points or zero market variance.  The function is total — the model never
raises, matching the source's catch-all. -/
def calculate_beta (asset market : Series) : ℚ :=
  if (betaAligned asset market).length < 2 then 1
  else
    if sampleVar ((betaAligned asset market).map (fun t => t.2.2)) = 0 then 1
    else
      sampleCov ((betaAligned asset market).map (fun t => (t.2.1, t.2.2)))
        / sampleVar ((betaAligned asset market).map (fun t => t.2.2))

/-! ## Exchange-rate cache (yahoo_finance.py, lines 10-60) -/

/-- The module-level FX state: `_exchange_rate_cache` (a dict keyed by
currency pair) together with the single shared `_cache_timestamp`.
Timestamps are wall-clock seconds. -/
structure FxCache where
  entries : List (String × ℚ)
  ts : Option Nat
deriving DecidableEq

/-- Result of the upstream `yf.Ticker(..).history(period='1d')` fetch: a
closing rate, an empty frame, or a raised exception. -/
inductive FetchOutcome
  | ok (rate : ℚ)
  | empty
  | error
deriving DecidableEq

/-- Python's `str.upper()` on ASCII currency codes: uppercase every
character. -/
def pyUpper (s : String) : String := String.mk (s.data.map Char.toUpper)

/-- `timedelta.seconds` of `now - t` for `now ≥ t`: Python's
`timedelta.seconds` is the seconds component below one day — the total
seconds modulo 86400 — not `total_seconds()`. -/
def tdSeconds (now t : Nat) : Nat := (now - t) % 86400

/-- The freshness test
`_cache_timestamp and (now - _cache_timestamp).seconds < CACHE_DURATION`
(yahoo_finance.py, line 35): one timestamp for the whole cache. -/
def cacheFresh (c : FxCache) (now : Nat) : Bool :=
  match c.ts with
  | none => false
  | some t => tdSeconds now t < 300

/-- `get_exchange_rate` (yahoo_finance.py, lines 18-60), with the wall
clock and the upstream fetch outcome passed explicitly; returns the rate
together with the updated module state.  The Python dict overwrite
`_exchange_rate_cache[key] = rate` is modelled by shadowing: the new pair
is consed in front and `assocGet` returns the first match. -/
def get_exchange_rate (from_currency to_currency : String) (c : FxCache) (now : Nat)
    (fetch : FetchOutcome) : ℚ × FxCache :=
  if pyUpper from_currency = pyUpper to_currency then (1, c)
  else
    match (if cacheFresh c now then
        assocGet c.entries (pyUpper from_currency ++ pyUpper to_currency) else none) with
    | some r => (r, c)
    | none =>
      match fetch with
      | .empty => (1, c)
      | .ok r => (r, { entries := (pyUpper from_currency ++ pyUpper to_currency, r) :: c.entries,
                       ts := some now })
      | .error => (1, c)

/-! ## Portfolio-level aggregation (portfolio_analytics.py) -/

/-- `calculate_returns` (yahoo_finance.py, lines 112-115):
`prices.pct_change().dropna()` — the fractional change between consecutive
observations, indexed by the later date (the first row's NaN is
dropped). -/
def pctChange (prices : Series) : Series :=
  (prices.zip prices.tail).map (fun pq => (pq.2.1, (pq.2.2 - pq.1.2) / pq.1.2))

/-- An enriched position as the analytics methods see it: its current total
value and, when the fetch succeeded, its close-price history. -/
structure APosition where
  total_value : ℚ
  hist : Option Series
deriving DecidableEq

/-- `total_value = sum(p['total_value'] for p in positions)` — the weight
denominator, summed over ALL positions, history or not
(portfolio_analytics.py, lines 23, 159, 277). -/
def totalValueAll (ps : List APosition) : ℚ := (ps.map (fun p => p.total_value)).sum

/-- Whether a position passes the guard
`hist_data is not None and not hist_data.empty`. -/
def hasHist (p : APosition) : Bool :=
  match p.hist with
  | some h => !h.isEmpty
  | none => false

/-- The fetch-and-weigh loop shared verbatim by
`calculate_portfolio_volatility` (lines 25-31), `calculate_portfolio_beta`
(lines 161-171) and `calculate_sharpe_ratio` (lines 279-285) of
portfolio_analytics.py: only positions whose history is present and
non-empty contribute a `(weight, returns)` pair, yet the weight denominator
is the total value over all positions. -/
def histReturns (ps : List APosition) : List (ℚ × Series) :=
  ps.filterMap (fun p =>
    p.hist.bind (fun h =>
      if h = [] then none
      else some (p.total_value / totalValueAll ps, pctChange h)))

/-- `returns.reindex(common_index, fill_value=0)` at a single date: the
return on that date when the series has one, else 0. -/
def reindexAt (r : Series) (d : Nat) : ℚ := (assocGet r d).getD 0

/-- One loop iteration `portfolio_returns += weight * aligned_returns`
(portfolio_analytics.py, lines 38-40, 181-183, 292-294). -/
def addWeighted (acc : Series) (w : ℚ) (r : Series) : Series :=
  acc.map (fun p => (p.1, p.2 + w * reindexAt r p.1))

/-- The aggregation loop: start from `pd.Series(0, index=cal)` and add each
weighted, reindexed return series. -/
def combineWeighted (cal : List Nat) (wrs : List (ℚ × Series)) : Series :=
  wrs.foldl (fun acc wr => addWeighted acc wr.1 wr.2) (cal.map (fun d => (d, 0)))

/-- The weighted portfolio return series of
`calculate_portfolio_volatility` (portfolio_analytics.py, lines 37-40) and
`calculate_sharpe_ratio` (lines 291-294): the common calendar is
`returns_data[0].index`, the return dates of the first position whose
history was fetched; `none` models the neutral early return when no
position has history. -/
def portfolioReturnsFirstIndex (ps : List APosition) : Option Series :=
  match histReturns ps with
  | [] => none
  | r0 :: rest => some (combineWeighted (r0.2.map Prod.fst) (r0 :: rest))

/-- The weighted portfolio return series of `calculate_portfolio_beta`
(portfolio_analytics.py, lines 177-183): the common calendar is the market
index's return dates. -/
def portfolioReturnsMarketIndex (ps : List APosition) (market : Series) : Option Series :=
  match histReturns ps with
  | [] => none
  | r0 :: rest => some (combineWeighted ((pctChange market).map Prod.fst) (r0 :: rest))

/-! ## Recommendations (portfolio_analytics.py, lines 302-360) -/

/-- A position as `generate_recommendations` sees it: symbol, current total
value, and the optional enriched volatility (`position.get('volatility', 0)`
reads 0 when absent). -/
structure RecPosition where
  symbol : String
  total_value : ℚ
  volatility : Option ℚ
deriving DecidableEq

/-- The metrics dict: `portfolio_metrics.get('beta', 1.0)` and
`portfolio_metrics.get('sharpe_ratio', 0)`. -/
structure PortfolioMetrics where
  beta : Option ℚ
  sharpe_ratio : Option ℚ
deriving DecidableEq

/-- Which recommendation a record is; stands for the French title and
description template of the source, which carry no further decision
content beyond the symbol they mention. -/
inductive RecoKind
  | concentration (symbol : String)
  | highVolatility (symbol : String)
  | balancedExposure
  | highMarketExposure
  | goodSharpe
deriving DecidableEq

/-- A recommendation record: Python `type`, kind, `priority`. -/
structure Reco where
  rtype : String
  kind : RecoKind
  priority : String
deriving DecidableEq

/-- `total_value = sum(p['total_value'] for p in positions)`
(portfolio_analytics.py, line 307). -/
def totalRecValue (ps : List RecPosition) : ℚ := (ps.map (fun p => p.total_value)).sum

/-- First loop (lines 310-318): concentration warnings for
`weight = total_value/total*100 > 40` (strict). -/
def concLoop (total : ℚ) : List RecPosition → List Reco → List Reco
  | [], acc => acc
  | p :: t, acc =>
    if 40 < p.total_value / total * 100 then
      concLoop total t (acc ++ [⟨"warning", .concentration p.symbol, "high"⟩])
    else concLoop total t acc

/-- Second loop (lines 321-328): volatility notices for
`position.get('volatility', 0) > 50`. -/
def volLoop : List RecPosition → List Reco → List Reco
  | [], acc => acc
  | p :: t, acc =>
    if 50 < p.volatility.getD 0 then
      volLoop t (acc ++ [⟨"info", .highVolatility p.symbol, "medium"⟩])
    else volLoop t acc

/-- `generate_recommendations` (portfolio_analytics.py, lines 302-360):
the two position loops, the beta `if/elif`, then the Sharpe check,
appended in that fixed order.  A non-empty position list with zero total
value raises ZeroDivisionError at the first weight computation; the
method's catch-all then returns the recommendations accumulated so far —
the empty list. -/
def generate_recommendations (ps : List RecPosition) (m : PortfolioMetrics) : List Reco :=
  if ps ≠ [] ∧ totalRecValue ps = 0 then []
  else
    (if 1 < m.sharpe_ratio.getD 0 then
      (if 9 / 10 ≤ m.beta.getD 1 ∧ m.beta.getD 1 ≤ 13 / 10 then
        volLoop ps (concLoop (totalRecValue ps) ps []) ++ [⟨"success", .balancedExposure, "low"⟩]
      else if 3 / 2 < m.beta.getD 1 then
        volLoop ps (concLoop (totalRecValue ps) ps []) ++ [⟨"warning", .highMarketExposure, "high"⟩]
      else volLoop ps (concLoop (totalRecValue ps) ps []))
        ++ [⟨"success", .goodSharpe, "low"⟩]
    else
      (if 9 / 10 ≤ m.beta.getD 1 ∧ m.beta.getD 1 ≤ 13 / 10 then
        volLoop ps (concLoop (totalRecValue ps) ps []) ++ [⟨"success", .balancedExposure, "low"⟩]
      else if 3 / 2 < m.beta.getD 1 then
        volLoop ps (concLoop (totalRecValue ps) ps []) ++ [⟨"warning", .highMarketExposure, "high"⟩]
      else volLoop ps (concLoop (totalRecValue ps) ps [])))

/-! ## Index comparison (performance_service.py, lines 208-281) -/

/-- Python's `round(x, 2)` on exact values: round half to even at two
decimal places. -/
def roundHalfEven (x : ℚ) : ℤ :=
  if x - ⌊x⌋ < 1 / 2 then ⌊x⌋
  else if 1 / 2 < x - ⌊x⌋ then ⌊x⌋ + 1
  else if ⌊x⌋ % 2 = 0 then ⌊x⌋ else ⌊x⌋ + 1

/-- `round(x, 2)`. -/
def pyRound2 (q : ℚ) : ℚ := (roundHalfEven (q * 100) : ℚ) / 100

/-- The index rows `compare_with_index` iterates: the benchmark history
restricted to `[start_date, end_date]`, the portfolio series' first and
last dates (performance_service.py, lines 225-237). -/
def idxWindow (portfolio hist : List (Nat × ℚ)) : List (Nat × ℚ) :=
  match portfolio with
  | [] => []
  | p0 :: ps =>
    hist.filter (fun q => decide (p0.1 ≤ q.1) && decide (q.1 ≤ (ps.getLastD p0).1))

/-- The comparison loop (performance_service.py, lines 250-272): walk the
in-window index rows carrying `last_portfolio_percent` (initially 0);
an exact-date hit in the portfolio lookup reports and updates the carry,
a miss reports the carry unchanged. -/
def walkCmp (src : List (Nat × ℚ)) (initPrice : ℚ) : ℚ → List (Nat × ℚ) → List (Nat × ℚ × ℚ)
  | _, [] => []
  | last, q :: t =>
    match assocGet src q.1 with
    | some v =>
      (q.1, pyRound2 v, pyRound2 ((q.2 - initPrice) / initPrice * 100))
        :: walkCmp src initPrice v t
    | none =>
      (q.1, pyRound2 last, pyRound2 ((q.2 - initPrice) / initPrice * 100))
        :: walkCmp src initPrice last t

/-- `compare_with_index` (performance_service.py, lines 208-281): empty
portfolio, empty window, or non-positive initial index price yield the
empty comparison; otherwise the carry walk over the window, with index
percents measured against the window's first close. -/
def compare_with_index : List (Nat × ℚ) → List (Nat × ℚ) → List (Nat × ℚ × ℚ)
  | [], _ => []
  | p0 :: ps, hist =>
    match idxWindow (p0 :: ps) hist with
    | [] => []
    | h0 :: hs => if h0.2 ≤ 0 then [] else walkCmp (p0 :: ps) h0.2 0 (h0 :: hs)

/-- The portfolio percent last known at or before the end of a walked date
list: fold the lookups, keeping the previous value on a miss. -/
def lastKnown (src : List (Nat × ℚ)) (ds : List Nat) (dflt : ℚ) : ℚ :=
  ds.foldl (fun acc d => (assocGet src d).getD acc) dflt

/-- Specification-side walk, following the amended claim's words: each
walked index date reports the portfolio percent at that exact date when
present, else the portfolio percent of the most recent previously walked
date that had one, else 0. -/
def specWalk (src : List (Nat × ℚ)) (initPrice : ℚ) :
    List Nat → List (Nat × ℚ) → List (Nat × ℚ × ℚ)
  | _, [] => []
  | processed, q :: t =>
    (q.1, pyRound2 (lastKnown src (processed ++ [q.1]) 0),
      pyRound2 ((q.2 - initPrice) / initPrice * 100))
      :: specWalk src initPrice (processed ++ [q.1]) t

/-! ## Helper lemmas about the calendar -/

theorem insertDate_mem {x d : Nat} : ∀ {l : List Nat}, x ∈ insertDate d l ↔ x = d ∨ x ∈ l := by
  intro l
  induction l with
  | nil => simp [insertDate]
  | cons e t ih =>
    by_cases h1 : d < e
    · simp [insertDate, h1]
    · by_cases h2 : d = e
      · subst h2
        simp only [insertDate, h1, if_false, if_pos rfl]
        constructor
        · intro hx; exact Or.inr hx
        · rintro (rfl | hx)
          · exact List.mem_cons_self _ _
          · exact hx
      · simp only [insertDate, h1, if_false, h2, List.mem_cons, ih]
        tauto

theorem insertDate_pairwise {d : Nat} : ∀ {l : List Nat},
    l.Pairwise (· < ·) → (insertDate d l).Pairwise (· < ·) := by
  intro l
  induction l with
  | nil => intro _; simp [insertDate]
  | cons e t ih =>
    intro hp
    rcases List.pairwise_cons.mp hp with ⟨he, ht⟩
    by_cases h1 : d < e
    · simp only [insertDate, h1, if_true]
      exact List.pairwise_cons.mpr ⟨by
        intro x hx
        rcases List.mem_cons.mp hx with rfl | hx
        · exact h1
        · exact lt_trans h1 (he x hx), hp⟩
    · by_cases h2 : d = e
      · subst h2; simpa [insertDate, h1] using hp
      · have hed : e < d := by omega
        simp only [insertDate, h1, if_false, h2]
        refine List.pairwise_cons.mpr ⟨?_, ih ht⟩
        intro x hx
        rcases insertDate_mem.mp hx with rfl | hx
        · exact hed
        · exact he x hx

theorem foldr_insertDate_pairwise (ds : List Nat) :
    (ds.foldr insertDate []).Pairwise (· < ·) := by
  induction ds with
  | nil => simp
  | cons d t ih => exact insertDate_pairwise ih

theorem foldr_insertDate_mem {x : Nat} : ∀ {ds : List Nat},
    x ∈ ds.foldr insertDate [] ↔ x ∈ ds := by
  intro ds
  induction ds with
  | nil => simp
  | cons d t ih => simp [insertDate_mem, ih]

theorem unionCal_pairwise (ss : List Series) : (unionCal ss).Pairwise (· < ·) :=
  foldr_insertDate_pairwise _

theorem mem_unionCal {ss : List Series} {d : Nat} :
    d ∈ unionCal ss ↔ ∃ s ∈ ss, d ∈ s.map Prod.fst := by
  unfold unionCal
  rw [foldr_insertDate_mem]
  simp [List.mem_flatMap]

/-! ## Helper lemmas about lookup -/

theorem assocGet_eq_some_mem {κ α : Type} [DecidableEq κ] {s : List (κ × α)} {k : κ} {v : α} :
    assocGet s k = some v → (k, v) ∈ s := by
  induction s with
  | nil => intro h; simp [assocGet] at h
  | cons p t ih =>
    intro h
    by_cases hk : p.1 = k
    · simp [assocGet, hk] at h
      subst h
      have hp : (k, p.2) = p := by
        obtain ⟨a, b⟩ := p
        simp only at hk
        rw [hk]
      rw [hp]
      exact List.mem_cons_self _ _
    · simp [assocGet, hk] at h
      exact List.mem_cons_of_mem _ (ih h)

theorem assocGet_isSome_of_mem {κ α : Type} [DecidableEq κ] {s : List (κ × α)} {k : κ} {v : α}
    (h : (k, v) ∈ s) : (assocGet s k).isSome := by
  induction s with
  | nil => simp at h
  | cons p t ih =>
    by_cases hk : p.1 = k
    · simp [assocGet, hk]
    · rcases List.mem_cons.mp h with rfl | h
      · simp at hk
      · simpa [assocGet, hk] using ih h

theorem assocGet_none_iff {κ α : Type} [DecidableEq κ] {s : List (κ × α)} {k : κ} :
    assocGet s k = none ↔ k ∉ s.map Prod.fst := by
  constructor
  · intro h hk
    rcases List.mem_map.mp hk with ⟨p, hp, hfst⟩
    have := assocGet_isSome_of_mem (k := k) (v := p.2) (by rw [← hfst]; exact hp)
    rw [h] at this
    simp at this
  · intro hk
    induction s with
    | nil => simp [assocGet]
    | cons p t ih =>
      have hp1 : p.1 ≠ k := by
        intro h; exact hk (by simp [← h])
      simp only [assocGet, hp1, if_false]
      exact ih (fun h => hk (by simp at h ⊢; tauto))

/-! ## Helper lemmas about forward/backward filling -/

theorem ffillAux_length (c : Option ℚ) (l : List (Option ℚ)) :
    (ffillAux c l).length = l.length := by
  induction l generalizing c with
  | nil => rfl
  | cons x t ih =>
    cases x with
    | some v => simp [ffillAux, ih]
    | none => simp [ffillAux, ih]

theorem fillColumn_length (l : List (Option ℚ)) : (fillColumn l).length = l.length := by
  simp [fillColumn, bfill, ffill, ffillAux_length]

theorem ffillAux_mem {c : Option ℚ} {l : List (Option ℚ)} {x : Option ℚ} :
    x ∈ ffillAux c l → x = c ∨ x ∈ l := by
  induction l generalizing c with
  | nil => intro h; simp [ffillAux] at h
  | cons y t ih =>
    cases y with
    | some v =>
      intro h
      rcases List.mem_cons.mp h with rfl | h
      · simp
      · rcases ih h with rfl | h
        · simp
        · simp [h]
    | none =>
      intro h
      rcases List.mem_cons.mp h with rfl | h
      · left; rfl
      · rcases ih h with rfl | h
        · left; rfl
        · simp [h]

theorem fillColumn_mem {l : List (Option ℚ)} {x : Option ℚ} :
    x ∈ fillColumn l → x = none ∨ x ∈ l := by
  intro h
  unfold fillColumn bfill at h
  rw [List.mem_reverse] at h
  rcases ffillAux_mem h with rfl | h
  · left; rfl
  · rw [List.mem_reverse] at h
    exact ffillAux_mem (c := none) h

theorem ffillAux_isSome_of_carry {v : ℚ} : ∀ {l : List (Option ℚ)} {x : Option ℚ},
    x ∈ ffillAux (some v) l → x.isSome := by
  intro l
  induction l generalizing v with
  | nil => intro x h; simp [ffillAux] at h
  | cons y t ih =>
    intro x h
    cases y with
    | some w =>
      rcases List.mem_cons.mp h with rfl | h
      · simp
      · exact ih h
    | none =>
      rcases List.mem_cons.mp h with rfl | h
      · simp
      · exact ih h

theorem ffillAux_getLast_isSome {c : Option ℚ} : ∀ {l : List (Option ℚ)}, l ≠ [] →
    (c.isSome ∨ ∃ x ∈ l, x.isSome) →
    ∃ v : ℚ, (ffillAux c l).getLast? = some (some v) := by
  intro l
  induction l generalizing c with
  | nil => intro h; exact absurd rfl h
  | cons y t ih =>
    intro _ hsome
    cases t with
    | nil =>
      cases y with
      | some w => exact ⟨w, rfl⟩
      | none =>
        rcases hsome with hc | ⟨x, hx, hxs⟩
        · rcases Option.isSome_iff_exists.mp hc with ⟨v, rfl⟩
          exact ⟨v, rfl⟩
        · simp at hx; subst hx; simp at hxs
    | cons z t' =>
      cases y with
      | some w =>
        have step : ffillAux c (some w :: z :: t') = some w :: ffillAux (some w) (z :: t') := rfl
        rw [step]
        rcases htl : ffillAux (some w) (z :: t') with _ | ⟨b, rest⟩
        · have := ffillAux_length (some w) (z :: t')
          rw [htl] at this
          simp at this
        · rw [List.getLast?_cons_cons, ← htl]
          exact ih (by simp) (Or.inl (by simp))
      | none =>
        have step : ffillAux c (none :: z :: t') = c :: ffillAux c (z :: t') := rfl
        rw [step]
        rcases htl : ffillAux c (z :: t') with _ | ⟨b, rest⟩
        · have := ffillAux_length c (z :: t')
          rw [htl] at this
          simp at this
        · rw [List.getLast?_cons_cons, ← htl]
          refine ih (by simp) ?_
          rcases hsome with hc | ⟨x, hx, hxs⟩
          · exact Or.inl hc
          · rcases List.mem_cons.mp hx with rfl | hx
            · simp at hxs
            · exact Or.inr ⟨x, hx, hxs⟩

/-- The key fill lemma: a column with at least one observation has no empty
cell left after forward then backward filling. -/
theorem fillColumn_all_isSome {l : List (Option ℚ)} (h : ∃ x ∈ l, x.isSome) :
    ∀ y ∈ fillColumn l, y.isSome := by
  rcases h with ⟨x, hx, hxs⟩
  have hne : l ≠ [] := by intro h; subst h; simp at hx
  have hlast := ffillAux_getLast_isSome (c := none) hne (Or.inr ⟨x, hx, hxs⟩)
  rcases hlast with ⟨v, hv⟩
  have hhead : (ffill l).reverse.head? = some (some v) := by
    rw [List.head?_reverse]
    exact hv
  intro y hy
  unfold fillColumn bfill at hy
  rw [List.mem_reverse] at hy
  rcases hrev : (ffill l).reverse with _ | ⟨z, rest⟩
  · rw [hrev] at hy; simp [ffillAux] at hy
  · rw [hrev] at hhead
    simp at hhead
    subst hhead
    rw [hrev] at hy
    have step : ffillAux none (some v :: rest) = some v :: ffillAux (some v) rest := rfl
    rw [step] at hy
    rcases List.mem_cons.mp hy with rfl | hy
    · simp
    · exact ffillAux_isSome_of_carry hy

theorem ffillAux_id_of_all_isSome {c : Option ℚ} : ∀ {l : List (Option ℚ)},
    (∀ x ∈ l, x.isSome) → ffillAux c l = l := by
  intro l
  induction l generalizing c with
  | nil => intro _; rfl
  | cons y t ih =>
    intro h
    cases y with
    | some v =>
      have : ffillAux c (some v :: t) = some v :: ffillAux (some v) t := rfl
      rw [this, ih (fun x hx => h x (List.mem_cons_of_mem _ hx))]
    | none =>
      have := h none (List.mem_cons_self _ _)
      simp at this

theorem fillColumn_id_of_all_isSome {l : List (Option ℚ)}
    (h : ∀ x ∈ l, x.isSome) : fillColumn l = l := by
  unfold fillColumn bfill ffill
  rw [ffillAux_id_of_all_isSome h]
  rw [ffillAux_id_of_all_isSome (fun x hx => h x (List.mem_reverse.mp hx))]
  exact List.reverse_reverse l

/-! ## Structure of the aligned table -/

theorem alignedColumns_all_isSome {ss : List Series} (h : ∀ s ∈ ss, s ≠ []) :
    ∀ c ∈ alignedColumns ss (unionCal ss), ∀ y ∈ c, y.isSome := by
  intro c hc
  rcases List.mem_map.mp hc with ⟨s, hs, rfl⟩
  apply fillColumn_all_isSome
  obtain ⟨p, hp⟩ := List.exists_mem_of_ne_nil s (h s hs)
  have hd : p.1 ∈ unionCal ss :=
    mem_unionCal.mpr ⟨s, hs, List.mem_map_of_mem Prod.fst hp⟩
  refine ⟨assocGet s p.1, List.mem_map_of_mem _ hd, ?_⟩
  apply assocGet_isSome_of_mem (k := p.1) (v := p.2)
  rw [Prod.mk.eta]
  exact hp

theorem alignedColumns_length {ss : List Series} {cal : List Nat} :
    ∀ c ∈ alignedColumns ss cal, c.length = cal.length := by
  intro c hc
  rcases List.mem_map.mp hc with ⟨s, hs, rfl⟩
  rw [fillColumn_length, List.length_map]

theorem tableRows_length (cols : List (List (Option ℚ))) (n : Nat) :
    (tableRows cols n).length = n := by
  simp [tableRows]

theorem tableRows_mem {cols : List (List (Option ℚ))} {n : Nat} {r : List (Option ℚ)}
    (hr : r ∈ tableRows cols n) (hlen : ∀ c ∈ cols, c.length = n) :
    ∀ y ∈ r, ∃ c ∈ cols, y ∈ c := by
  rcases List.mem_map.mp hr with ⟨i, hi, rfl⟩
  intro y hy
  rcases List.mem_map.mp hy with ⟨c, hc, rfl⟩
  have hilt : i < c.length := by
    rw [hlen c hc]
    exact List.mem_range.mp hi
  refine ⟨c, hc, ?_⟩
  have hgd : c.getD i none = c.get ⟨i, hilt⟩ := by
    rw [List.getD_eq_getElem?_getD, List.getElem?_eq_getElem hilt, Option.getD_some,
      List.get_eq_getElem]
  rw [hgd]
  exact List.get_mem c i hilt

theorem tableRows_row_length {cols : List (List (Option ℚ))} {n : Nat} {r : List (Option ℚ)}
    (hr : r ∈ tableRows cols n) : r.length = cols.length := by
  rcases List.mem_map.mp hr with ⟨i, _, rfl⟩
  exact List.length_map _ _

/-- If every input series is non-empty, the aligned table keeps every date of
the unified calendar (no row is dropped), and every summed portfolio value
is the sum of a non-empty list of values each of which is an actual
observation of one of the input series. -/
theorem alignValues_spec (ss : List Series) (hne : ss ≠ []) (h : ∀ s ∈ ss, s ≠ []) :
    (alignValues ss).map Prod.fst = unionCal ss ∧
    ∀ x ∈ alignValues ss, ∃ l : List ℚ, l ≠ [] ∧
      (∀ v ∈ l, ∃ s ∈ ss, ∃ d : Nat, (d, v) ∈ s) ∧ x.2 = l.sum := by
  have hrowsome : ∀ r ∈ tableRows (alignedColumns ss (unionCal ss)) (unionCal ss).length,
      ∀ y ∈ r, y.isSome := by
    intro r hr y hy
    rcases tableRows_mem hr alignedColumns_length y hy with ⟨c, hc, hyc⟩
    exact alignedColumns_all_isSome h c hc y hyc
  have hkeep : (((unionCal ss).zip
        (tableRows (alignedColumns ss (unionCal ss)) (unionCal ss).length)).filter
      (fun p => p.2.all Option.isSome))
      = (unionCal ss).zip (tableRows (alignedColumns ss (unionCal ss)) (unionCal ss).length) := by
    rw [List.filter_eq_self]
    intro p hp
    obtain ⟨a, b⟩ := p
    have hb := (List.of_mem_zip hp).2
    exact List.all_eq_true.mpr (fun y hy => hrowsome b hb y hy)
  constructor
  · unfold alignValues
    rw [hkeep, List.map_map]
    have hcomp : (Prod.fst ∘ fun p : Nat × List (Option ℚ) => (p.1, (p.2.filterMap id).sum))
        = (Prod.fst : Nat × List (Option ℚ) → Nat) := rfl
    rw [hcomp]
    exact List.map_fst_zip _ _ (le_of_eq (tableRows_length _ _).symm)
  · intro x hx
    unfold alignValues at hx
    rw [hkeep] at hx
    rcases List.mem_map.mp hx with ⟨p, hp, rfl⟩
    obtain ⟨a, b⟩ := p
    have hb := (List.of_mem_zip hp).2
    refine ⟨b.filterMap id, ?_, ?_, rfl⟩
    · have hblen : b.length = (alignedColumns ss (unionCal ss)).length := tableRows_row_length hb
      have hbne : b ≠ [] := by
        intro hnil
        rw [hnil] at hblen
        simp only [List.length_nil, alignedColumns, List.length_map] at hblen
        exact hne (List.length_eq_zero.mp hblen.symm)
      obtain ⟨y, hy⟩ := List.exists_mem_of_ne_nil b hbne
      rcases Option.isSome_iff_exists.mp (hrowsome b hb y hy) with ⟨v, rfl⟩
      have : v ∈ b.filterMap id := List.mem_filterMap.mpr ⟨some v, hy, rfl⟩
      exact List.ne_nil_of_mem this
    · intro v hv
      rcases List.mem_filterMap.mp hv with ⟨y, hy, hyv⟩
      rcases tableRows_mem hb alignedColumns_length y hy with ⟨c, hc, hyc⟩
      rcases List.mem_map.mp hc with ⟨s, hs, rfl⟩
      rcases fillColumn_mem hyc with rfl | hmem
      · simp at hyv
      · rcases List.mem_map.mp hmem with ⟨d, _, hget⟩
        simp only [id] at hyv
        subst hyv
        exact ⟨s, hs, d, assocGet_eq_some_mem hget⟩

/-! ## Idempotence of the Aligner -/

theorem alignValues_keyPairwise (ss : List Series) :
    (alignValues ss).Pairwise (fun p q => p.1 < q.1) := by
  unfold alignValues
  rw [List.pairwise_map]
  apply List.Pairwise.sublist (List.filter_sublist _)
  have hfst : ((unionCal ss).zip
      (tableRows (alignedColumns ss (unionCal ss)) (unionCal ss).length)).map Prod.fst
      = unionCal ss :=
    List.map_fst_zip _ _ (le_of_eq (tableRows_length _ _).symm)
  have hp := unionCal_pairwise ss
  rw [← hfst, List.pairwise_map] at hp
  exact hp

theorem insertDate_of_forall_lt {d : Nat} {l : List Nat} (h : ∀ x ∈ l, d < x) :
    insertDate d l = d :: l := by
  cases l with
  | nil => rfl
  | cons e t => simp [insertDate, h e (List.mem_cons_self _ _)]

theorem foldr_insertDate_of_pairwise {ds : List Nat} (h : ds.Pairwise (· < ·)) :
    ds.foldr insertDate [] = ds := by
  induction ds with
  | nil => rfl
  | cons d t ih =>
    rcases List.pairwise_cons.mp h with ⟨hd, ht⟩
    have : t.foldr insertDate [] = t := ih ht
    simp only [List.foldr_cons, this]
    exact insertDate_of_forall_lt hd

theorem unionCal_single {t : Series} (h : t.Pairwise (fun p q => p.1 < q.1)) :
    unionCal [t] = t.map Prod.fst := by
  unfold unionCal
  have : ([t].flatMap (fun s => s.map Prod.fst)) = t.map Prod.fst := by
    simp [List.flatMap]
  rw [this]
  apply foldr_insertDate_of_pairwise
  rw [List.pairwise_map]
  exact h

theorem assocGet_self_map {t : Series} (h : t.Pairwise (fun p q => p.1 < q.1)) :
    (t.map Prod.fst).map (assocGet t) = t.map (fun p => some p.2) := by
  induction t with
  | nil => rfl
  | cons p rest ih =>
    rcases List.pairwise_cons.mp h with ⟨hp, hrest⟩
    simp only [List.map_cons]
    have hhead : assocGet (p :: rest) p.1 = some p.2 := by simp [assocGet]
    rw [hhead]
    congr 1
    have hstep : (rest.map Prod.fst).map (assocGet (p :: rest))
        = (rest.map Prod.fst).map (assocGet rest) := by
      apply List.map_congr_left
      intro d hd
      rcases List.mem_map.mp hd with ⟨q, hq, rfl⟩
      have : p.1 ≠ q.1 := ne_of_lt (hp q hq)
      simp [assocGet, this]
    rw [hstep]
    exact ih hrest

theorem tableRows_single (L : List (Option ℚ)) :
    tableRows [L] L.length = L.map (fun x => [x]) := by
  induction L with
  | nil => rfl
  | cons x xs ih =>
    have ih' : (List.range xs.length).map (fun i => [xs.getD i none])
        = xs.map (fun y => [y]) := by
      unfold tableRows at ih
      simpa using ih
    unfold tableRows
    simp only [List.length_cons, List.range_succ_eq_map, List.map_cons, List.map_map,
      List.map_nil, Function.comp_def, List.getD_cons_zero, List.getD_cons_succ]
    rw [ih']

/-- Aligning a singleton list holding one series with strictly increasing
dates reproduces that series unchanged. -/
theorem alignValues_single {t : Series} (h : t.Pairwise (fun p q => p.1 < q.1)) :
    alignValues [t] = t := by
  unfold alignValues
  rw [unionCal_single h]
  have hcols : alignedColumns [t] (t.map Prod.fst) = [t.map (fun p => some p.2)] := by
    unfold alignedColumns
    simp only [List.map_cons, List.map_nil]
    rw [assocGet_self_map h]
    rw [fillColumn_id_of_all_isSome (by intro x hx; rcases List.mem_map.mp hx with ⟨p, _, rfl⟩; rfl)]
  rw [hcols]
  have hlen : (t.map Prod.fst).length = (t.map (fun p => some p.2)).length := by
    simp
  rw [List.length_map, ← List.length_map t (fun p => some p.2), tableRows_single]
  rw [List.map_map, List.zip_map']
  simp only [Function.comp_def]
  have hfil : (t.map fun a => (a.1, [some a.2])).filter (fun p => p.2.all Option.isSome)
      = t.map fun a => (a.1, [some a.2]) := by
    rw [List.filter_eq_self]
    intro p hp
    rcases List.mem_map.mp hp with ⟨a, _, rfl⟩
    rfl
  rw [hfil, List.map_map]
  have : ((fun p : Nat × List (Option ℚ) => (p.1, (p.2.filterMap id).sum))
      ∘ (fun a : Nat × ℚ => (a.1, [some a.2]))) = (fun a : Nat × ℚ => (a.1, a.2)) := by
    funext a
    simp
  rw [this]
  simp

/-! ## Claim theorems for the Aligner -/

/-- C1: for every non-empty set of per-instrument value series (positive
prices, positive quantities), the Aligner of
`calculate_portfolio_performance` produces one value series whose calendar
is exactly the union of all native dates (no date of the unified calendar
is missing from the result) and in which no value is zero or null: every
aligned value is strictly positive. -/
theorem c1_aligner_unified_calendar (inputs : List (ℚ × Series))
    (hne : inputs ≠ [])
    (hqty : ∀ p ∈ inputs, 0 < p.1)
    (hnemp : ∀ p ∈ inputs, p.2 ≠ [])
    (hpos : ∀ p ∈ inputs, ∀ x ∈ p.2, 0 < x.2) :
    (alignValues (inputs.map (fun p => positionValues p.1 p.2))).map Prod.fst
        = unionCal (inputs.map (fun p => positionValues p.1 p.2)) ∧
    ∀ x ∈ alignValues (inputs.map (fun p => positionValues p.1 p.2)), 0 < x.2 := by
  have hne' : inputs.map (fun p => positionValues p.1 p.2) ≠ [] := by
    intro h
    exact hne (List.map_eq_nil_iff.mp h)
  have hnemp' : ∀ s ∈ inputs.map (fun p => positionValues p.1 p.2), s ≠ [] := by
    intro s hs
    rcases List.mem_map.mp hs with ⟨p, hp, rfl⟩
    intro h
    exact hnemp p hp (List.map_eq_nil_iff.mp h)
  obtain ⟨hdates, hval⟩ := alignValues_spec _ hne' hnemp'
  refine ⟨hdates, ?_⟩
  intro x hx
  rcases hval x hx with ⟨l, hlne, hlmem, hsum⟩
  rw [hsum]
  apply List.sum_pos
  · intro v hv
    rcases hlmem v hv with ⟨s, hs, d, hds⟩
    rcases List.mem_map.mp hs with ⟨p, hp, rfl⟩
    rcases List.mem_map.mp hds with ⟨x', hx', hx'eq⟩
    have hv2 : x'.2 * p.1 = v := congrArg Prod.snd hx'eq
    rw [← hv2]
    exact mul_pos (hpos p hp x' hx') (hqty p hp)
  · exact hlne

/-- Witness for C1 at a concrete two-instrument portfolio: one instrument
with observations on days 0 and 2, another (different calendar) with a
single observation on day 1. -/
theorem c1_aligner_unified_calendar_witness :
    (alignValues ([((1 : ℚ), [((0 : Nat), (2 : ℚ)), (2, 3)]), (2, [(1, 5)])].map
        (fun p => positionValues p.1 p.2))).map Prod.fst
        = unionCal ([((1 : ℚ), [((0 : Nat), (2 : ℚ)), (2, 3)]), (2, [(1, 5)])].map
        (fun p => positionValues p.1 p.2)) ∧
    ∀ x ∈ alignValues ([((1 : ℚ), [((0 : Nat), (2 : ℚ)), (2, 3)]), (2, [(1, 5)])].map
        (fun p => positionValues p.1 p.2)), 0 < x.2 :=
  c1_aligner_unified_calendar [((1 : ℚ), [((0 : Nat), (2 : ℚ)), (2, 3)]), (2, [(1, 5)])]
    (by decide) (by decide) (by decide) (by decide)

/-- C10: the Aligner is idempotent — applying the alignment transform
(union calendar, forward-fill, backward-fill, drop-incomplete-rows,
row-wise sum) to a series that is already its own aligned output yields an
identical series. -/
theorem c10_aligner_idempotent (ss : List Series) :
    alignValues [alignValues ss] = alignValues ss :=
  alignValues_single (alignValues_keyPairwise ss)

/-- C3 (refuted — the code, not the claim, is wrong here): on a constant
return series the standard deviation is exactly 0, and
`calculate_sharpe_ratio` divides the non-zero mean excess return by it.
Numpy float division by zero warns and returns negative infinity; the
documented neutral 0.0 is never produced and the `except` clause never
fires.  Evaluated at the constant series [0, 0, 0] with the default
risk-free rate 0.02. -/
theorem c3_sharpe_zero_vol_not_neutral :
    sampleVar [(0 : ℚ), 0, 0] = 0 ∧
    calculate_sharpe_ratio [(0 : ℚ), 0, 0] (2 / 100) = SharpeOutcome.negInf := by
  have hvar : sampleVar [(0 : ℚ), 0, 0] = 0 := by
    norm_num [sampleVar, qmean]
  refine ⟨hvar, ?_⟩
  have hmean : qmean ([(0 : ℚ), 0, 0].map (fun r => r - (2 / 100) / 252)) = -(1 / 12600) := by
    norm_num [qmean]
  unfold calculate_sharpe_ratio
  rw [if_neg (by norm_num), if_pos hvar, if_neg (by rw [hmean]; norm_num),
    if_neg (by rw [hmean]; norm_num)]

/-- C6: `calculate_beta` computes covariance/variance over exactly the
inner join of the two series' dates (membership in the aligned table is
equivalent to having an observation in both series on that date), returns
the neutral 1.0 when the join has fewer than 2 points or the market
variance over the join is 0, and otherwise returns covariance/variance.
The embedding is a total function, matching "never raises". -/
theorem c6_beta_inner_join (asset market : Series) :
    (∀ t : Nat × ℚ × ℚ, t ∈ betaAligned asset market ↔
        assocGet asset t.1 = some t.2.1 ∧ assocGet market t.1 = some t.2.2) ∧
    ((betaAligned asset market).length < 2 → calculate_beta asset market = 1) ∧
    (sampleVar ((betaAligned asset market).map (fun t => t.2.2)) = 0 →
        calculate_beta asset market = 1) ∧
    (2 ≤ (betaAligned asset market).length →
      sampleVar ((betaAligned asset market).map (fun t => t.2.2)) ≠ 0 →
      calculate_beta asset market
        = sampleCov ((betaAligned asset market).map (fun t => (t.2.1, t.2.2)))
          / sampleVar ((betaAligned asset market).map (fun t => t.2.2))) := by
  refine ⟨?_, ?_, ?_, ?_⟩
  · intro t
    constructor
    · intro ht
      rcases List.mem_filterMap.mp ht with ⟨d, _, heq⟩
      rcases ha : assocGet asset d with _ | x
      · rw [ha] at heq; simp at heq
      · rcases hm : assocGet market d with _ | y
        · rw [ha, hm] at heq; simp at heq
        · rw [ha, hm] at heq
          simp only [Option.some_inj] at heq
          rw [← heq]
          exact ⟨ha, hm⟩
    · intro ⟨ha, hm⟩
      apply List.mem_filterMap.mpr
      refine ⟨t.1, ?_, ?_⟩
      · apply mem_unionCal.mpr
        exact ⟨asset, by simp, List.mem_map_of_mem Prod.fst (assocGet_eq_some_mem ha)⟩
      · rw [ha, hm]
  · intro hlt
    unfold calculate_beta
    rw [if_pos hlt]
  · intro hvar
    unfold calculate_beta
    by_cases hlt : (betaAligned asset market).length < 2
    · rw [if_pos hlt]
    · rw [if_neg hlt, if_pos hvar]
  · intro hge hvar
    unfold calculate_beta
    rw [if_neg (by omega), if_neg hvar]

/-- Witness for C6 at a concrete pair of two-point series with full date
overlap, non-zero market variance, and beta = 1. -/
theorem c6_beta_inner_join_witness :
    (((0 : Nat), (1 : ℚ), (2 : ℚ)) ∈ betaAligned [(0, 1), (1, 3)] [(0, 2), (1, 4)]) ∧
    calculate_beta [(0, 1), (1, 3)] [(0, 2), (1, 4)]
      = sampleCov ((betaAligned [(0, 1), (1, 3)] [(0, 2), (1, 4)]).map (fun t => (t.2.1, t.2.2)))
        / sampleVar ((betaAligned [(0, 1), (1, 3)] [(0, 2), (1, 4)]).map (fun t => t.2.2)) := by
  have h := c6_beta_inner_join [(0, 1), (1, 3)] [(0, 2), (1, 4)]
  have htab : betaAligned [((0 : Nat), (1 : ℚ)), (1, 3)] [((0 : Nat), (2 : ℚ)), (1, 4)]
      = [(0, 1, 2), (1, 3, 4)] := rfl
  refine ⟨(h.1 _).mpr ⟨rfl, rfl⟩, h.2.2.2 (by rw [htab]; decide) ?_⟩
  rw [htab]
  norm_num [sampleVar, qmean]

/-- C8: `get_exchange_rate` returns exactly 1.0 whenever source and target
currency are equal case-insensitively, and returns 1.0 — never an error —
whenever the fetch is actually consulted (no fresh cached value) and it
throws or returns no data. -/
theorem c8_exchange_rate_identity_fallback (fc tc : String) (c : FxCache) (now : Nat)
    (fetch : FetchOutcome) :
    (pyUpper fc = pyUpper tc → (get_exchange_rate fc tc c now fetch).1 = 1) ∧
    ((if cacheFresh c now then assocGet c.entries (pyUpper fc ++ pyUpper tc) else none) = none →
      fetch = FetchOutcome.empty ∨ fetch = FetchOutcome.error →
      (get_exchange_rate fc tc c now fetch).1 = 1) := by
  constructor
  · intro hsame
    unfold get_exchange_rate
    rw [if_pos hsame]
  · intro hmiss hfet
    unfold get_exchange_rate
    by_cases hsame : pyUpper fc = pyUpper tc
    · rw [if_pos hsame]
    · rw [if_neg hsame, hmiss]
      rcases hfet with rfl | rfl <;> rfl

/-- Witness for C8: identical currencies up to case (fetch erroring), and a
cold cache with an empty fetch result. -/
theorem c8_exchange_rate_identity_fallback_witness :
    (get_exchange_rate "usd" "USD" ⟨[], none⟩ 0 FetchOutcome.error).1 = 1 ∧
    (get_exchange_rate "USD" "EUR" ⟨[], none⟩ 5 FetchOutcome.empty).1 = 1 :=
  ⟨(c8_exchange_rate_identity_fallback "usd" "USD" ⟨[], none⟩ 0 FetchOutcome.error).1 (by decide),
   (c8_exchange_rate_identity_fallback "USD" "EUR" ⟨[], none⟩ 5 FetchOutcome.empty).2 (by decide)
     (Or.inl rfl)⟩

/-- C9 (refuted — the code, not the claim, is wrong here): the cache
timestamp is global to the whole dict, so fetching GBPEUR at t = 280 s
refreshes the validity of the USDEUR entry fetched at t = 0 s; at
t = 540 s the USDEUR rate 0.9 is served from the cache although it is
540 s (> 300 s) old and a live fetch would return 0.95.  Moreover
`timedelta.seconds` wraps at one day, so at t = 86700 s (a day plus five
minutes after the last fetch) the same stale 0.9 is served again. -/
theorem c9_cache_staleness_trace :
    (get_exchange_rate "USD" "EUR"
        ((get_exchange_rate "GBP" "EUR"
            ((get_exchange_rate "USD" "EUR" ⟨[], none⟩ 0 (FetchOutcome.ok (9 / 10))).2)
            280 (FetchOutcome.ok (117 / 100))).2)
        540 (FetchOutcome.ok (95 / 100))).1 = 9 / 10 ∧
    (get_exchange_rate "USD" "EUR"
        ((get_exchange_rate "GBP" "EUR"
            ((get_exchange_rate "USD" "EUR" ⟨[], none⟩ 0 (FetchOutcome.ok (9 / 10))).2)
            280 (FetchOutcome.ok (117 / 100))).2)
        86700 (FetchOutcome.ok 2)).1 = 9 / 10 := by
  constructor
  · rfl
  · rfl

/-! ### The aggregation loop characterised -/

theorem combineWeighted_foldl (wrs : List (ℚ × Series)) :
    ∀ acc : Series, wrs.foldl (fun a wr => addWeighted a wr.1 wr.2) acc
      = acc.map (fun p => (p.1, p.2 + (wrs.map (fun wr => wr.1 * reindexAt wr.2 p.1)).sum)) := by
  induction wrs with
  | nil =>
    intro acc
    simp
  | cons wr rest ih =>
    intro acc
    simp only [List.foldl_cons]
    rw [ih (addWeighted acc wr.1 wr.2)]
    unfold addWeighted
    rw [List.map_map]
    apply List.map_congr_left
    intro p _
    simp [add_assoc]

theorem combineWeighted_spec (cal : List Nat) (wrs : List (ℚ × Series)) :
    (combineWeighted cal wrs).map Prod.fst = cal ∧
    ∀ x ∈ combineWeighted cal wrs,
      x.2 = (wrs.map (fun wr => wr.1 * reindexAt wr.2 x.1)).sum := by
  unfold combineWeighted
  rw [combineWeighted_foldl]
  constructor
  · rw [List.map_map, List.map_map]
    simp [Function.comp_def]
  · intro x hx
    rw [List.map_map] at hx
    rcases List.mem_map.mp hx with ⟨d, _, rfl⟩
    simp

/-- C7: the portfolio-volatility and portfolio-Sharpe aggregations use the
first fetched position's return dates as the common calendar, the
portfolio-beta aggregation uses the market's return dates; each position's
return series is reindexed onto that calendar — every aggregated value is
the weighted sum of per-position returns looked up at that exact date, 0
when absent — and dates outside the calendar never appear in the output
(its date list IS the calendar; no union, no forward-fill). -/
theorem c7_aggregation_calendar (ps : List APosition) (market : Series)
    (r0 : ℚ × Series) (rest : List (ℚ × Series))
    (h : histReturns ps = r0 :: rest) :
    (∃ c, portfolioReturnsFirstIndex ps = some c ∧
      c.map Prod.fst = r0.2.map Prod.fst ∧
      ∀ x ∈ c, x.2 = ((r0 :: rest).map (fun wr => wr.1 * reindexAt wr.2 x.1)).sum) ∧
    (∃ c, portfolioReturnsMarketIndex ps market = some c ∧
      c.map Prod.fst = (pctChange market).map Prod.fst ∧
      ∀ x ∈ c, x.2 = ((r0 :: rest).map (fun wr => wr.1 * reindexAt wr.2 x.1)).sum) ∧
    (∀ r : Series, ∀ d : Nat, d ∉ r.map Prod.fst → reindexAt r d = 0) := by
  refine ⟨?_, ?_, ?_⟩
  · refine ⟨combineWeighted (r0.2.map Prod.fst) (r0 :: rest), ?_,
      (combineWeighted_spec _ _).1, (combineWeighted_spec _ _).2⟩
    unfold portfolioReturnsFirstIndex
    rw [h]
  · refine ⟨combineWeighted ((pctChange market).map Prod.fst) (r0 :: rest), ?_,
      (combineWeighted_spec _ _).1, (combineWeighted_spec _ _).2⟩
    unfold portfolioReturnsMarketIndex
    rw [h]
  · intro r d hd
    unfold reindexAt
    rw [assocGet_none_iff.mpr hd]
    rfl

/-- Witness for C7: two positions with histories on different calendars
(second position has no observation on day 1, the first's return date),
and a market whose only return date is day 1. -/
theorem c7_aggregation_calendar_witness :
    (∃ c, portfolioReturnsFirstIndex
        [⟨1, some [((0 : Nat), (1 : ℚ)), (1, 2)]⟩, ⟨1, some [((0 : Nat), (1 : ℚ)), (2, 3)]⟩]
          = some c ∧
      c.map Prod.fst = [((1 : Nat), (1 : ℚ))].map Prod.fst ∧
      ∀ x ∈ c, x.2 = (([((1 : ℚ) / 2, [((1 : Nat), (1 : ℚ))]),
          ((1 : ℚ) / 2, [((2 : Nat), (2 : ℚ))])]).map
          (fun wr => wr.1 * reindexAt wr.2 x.1)).sum) ∧
    (∃ c, portfolioReturnsMarketIndex
        [⟨1, some [((0 : Nat), (1 : ℚ)), (1, 2)]⟩, ⟨1, some [((0 : Nat), (1 : ℚ)), (2, 3)]⟩]
        [((0 : Nat), (1 : ℚ)), (1, 2)] = some c ∧
      c.map Prod.fst = (pctChange [((0 : Nat), (1 : ℚ)), (1, 2)]).map Prod.fst ∧
      ∀ x ∈ c, x.2 = (([((1 : ℚ) / 2, [((1 : Nat), (1 : ℚ))]),
          ((1 : ℚ) / 2, [((2 : Nat), (2 : ℚ))])]).map
          (fun wr => wr.1 * reindexAt wr.2 x.1)).sum) ∧
    (∀ r : Series, ∀ d : Nat, d ∉ r.map Prod.fst → reindexAt r d = 0) :=
  c7_aggregation_calendar
    [⟨1, some [((0 : Nat), (1 : ℚ)), (1, 2)]⟩, ⟨1, some [((0 : Nat), (1 : ℚ)), (2, 3)]⟩]
    [((0 : Nat), (1 : ℚ)), (1, 2)]
    ((1 : ℚ) / 2, [((1 : Nat), (1 : ℚ))]) [((1 : ℚ) / 2, [((2 : Nat), (2 : ℚ))])]
    (by norm_num +decide [histReturns, pctChange, totalValueAll, List.filterMap_cons])

/-! ### Weights of positions without history (C2) -/

/-- C2 (refuting the claim): with two equally-valued positions, one with
history and one without, the participating weights sum to 1/2, not 1.  The
history-less position is excluded from the return aggregation, but its
value still enters the shared weight denominator
`total_value = sum(p['total_value'] for p in positions)`. -/
theorem c2_nohist_weights_not_one :
    ((histReturns [⟨1, some [((0 : Nat), (1 : ℚ)), (1, 2)]⟩, ⟨1, none⟩]).map
        (fun wr => wr.1)).sum ≠ 1 ∧
    (⟨1, none⟩ : APosition).hist = none := by
  constructor
  · have hev : histReturns [⟨1, some [((0 : Nat), (1 : ℚ)), (1, 2)]⟩, ⟨1, none⟩]
        = [(1 / 2, [(1, 1)])] := by
      norm_num +decide [histReturns, pctChange, totalValueAll, List.filterMap_cons]
    rw [hev]
    norm_num
  · rfl

theorem histReturns_weights_aux (t : ℚ) (ps : List APosition) :
    ((ps.filterMap (fun p => p.hist.bind (fun h =>
        if h = [] then none
        else some (p.total_value / t, pctChange h)))).map (fun wr => wr.1)).sum
      = ((ps.filter hasHist).map (fun p => p.total_value)).sum / t := by
  induction ps with
  | nil => simp
  | cons p rest ih =>
    rcases hh : p.hist with _ | hist
    · rw [List.filterMap_cons, List.filter_cons]
      have h1 : (p.hist.bind fun h => if h = [] then none
          else some (p.total_value / t, pctChange h)) = none := by rw [hh]; rfl
      have h2 : hasHist p = false := by unfold hasHist; rw [hh]
      rw [h1, h2]
      simpa using ih
    · by_cases hemp : hist = []
      · rw [List.filterMap_cons, List.filter_cons]
        have h1 : (p.hist.bind fun h => if h = [] then none
            else some (p.total_value / t, pctChange h)) = none := by
          rw [hh]
          simp [hemp]
        have h2 : hasHist p = false := by
          unfold hasHist
          rw [hh, hemp]
          rfl
        rw [h1, h2]
        simpa using ih
      · rw [List.filterMap_cons, List.filter_cons]
        have h1 : (p.hist.bind fun h => if h = [] then none
            else some (p.total_value / t, pctChange h))
            = some (p.total_value / t, pctChange hist) := by
          rw [hh]
          simp [hemp]
        have h2 : hasHist p = true := by
          unfold hasHist
          rw [hh]
          simp [hemp]
        rw [h1, h2]
        simp only [if_true, List.map_cons, List.sum_cons]
        rw [ih, add_div]

/-- C2 amended: in every portfolio-level aggregation, a position without
(non-empty) history contributes no `(weight, returns)` pair to the
aggregation, but its `total_value` still enters the denominator, so the
participating weights sum to (value of positions with history) / (total
value of all positions) — equal to 1 only when every position has
history. -/
theorem c2_amended_weight_sum (ps : List APosition) (h' : totalValueAll ps ≠ 0) :
    ((histReturns ps).map (fun wr => wr.1)).sum
      = ((ps.filter hasHist).map (fun p => p.total_value)).sum / totalValueAll ps :=
  histReturns_weights_aux (totalValueAll ps) ps

/-- Witness for the amended C2 at the counterexample portfolio: the
participating weights sum to (1)/(2). -/
theorem c2_amended_weight_sum_witness :
    totalValueAll [⟨1, some [((0 : Nat), (1 : ℚ)), (1, 2)]⟩, (⟨1, none⟩ : APosition)] ≠ 0 ∧
    ((histReturns [⟨1, some [((0 : Nat), (1 : ℚ)), (1, 2)]⟩, ⟨1, none⟩]).map
        (fun wr => wr.1)).sum
      = (([⟨1, some [((0 : Nat), (1 : ℚ)), (1, 2)]⟩, (⟨1, none⟩ : APosition)].filter hasHist).map
          (fun p => p.total_value)).sum
        / totalValueAll [⟨1, some [((0 : Nat), (1 : ℚ)), (1, 2)]⟩, ⟨1, none⟩] := by
  constructor
  · norm_num [totalValueAll]
  · exact c2_amended_weight_sum _ (by norm_num [totalValueAll])

theorem concLoop_eq (total : ℚ) : ∀ (ps : List RecPosition) (acc : List Reco),
    concLoop total ps acc
      = acc ++ (ps.filter (fun p => decide (40 < p.total_value / total * 100))).map
          (fun p => ⟨"warning", RecoKind.concentration p.symbol, "high"⟩) := by
  intro ps
  induction ps with
  | nil => intro acc; simp [concLoop]
  | cons p t ih =>
    intro acc
    by_cases hc : 40 < p.total_value / total * 100
    · have h1 : concLoop total (p :: t) acc
          = concLoop total t (acc ++ [⟨"warning", .concentration p.symbol, "high"⟩]) := by
        simp only [concLoop]
        rw [if_pos hc]
      have h2 : (p :: t).filter (fun p => decide (40 < p.total_value / total * 100))
          = p :: t.filter (fun p => decide (40 < p.total_value / total * 100)) := by
        rw [List.filter_cons, if_pos (by simpa using hc)]
      rw [h1, h2, ih, List.map_cons, List.append_assoc]
      rfl
    · have h1 : concLoop total (p :: t) acc = concLoop total t acc := by
        simp only [concLoop]
        rw [if_neg hc]
      have h2 : (p :: t).filter (fun p => decide (40 < p.total_value / total * 100))
          = t.filter (fun p => decide (40 < p.total_value / total * 100)) := by
        rw [List.filter_cons, if_neg (by simpa using hc)]
      rw [h1, h2, ih]

theorem volLoop_eq : ∀ (ps : List RecPosition) (acc : List Reco),
    volLoop ps acc
      = acc ++ (ps.filter (fun p => decide (50 < p.volatility.getD 0))).map
          (fun p => ⟨"info", RecoKind.highVolatility p.symbol, "medium"⟩) := by
  intro ps
  induction ps with
  | nil => intro acc; simp [volLoop]
  | cons p t ih =>
    intro acc
    by_cases hc : 50 < p.volatility.getD 0
    · have h1 : volLoop (p :: t) acc
          = volLoop t (acc ++ [⟨"info", .highVolatility p.symbol, "medium"⟩]) := by
        simp only [volLoop]
        rw [if_pos hc]
      have h2 : (p :: t).filter (fun p => decide (50 < p.volatility.getD 0))
          = p :: t.filter (fun p => decide (50 < p.volatility.getD 0)) := by
        rw [List.filter_cons, if_pos (by simpa using hc)]
      rw [h1, h2, ih, List.map_cons, List.append_assoc]
      rfl
    · have h1 : volLoop (p :: t) acc = volLoop t acc := by
        simp only [volLoop]
        rw [if_neg hc]
      have h2 : (p :: t).filter (fun p => decide (50 < p.volatility.getD 0))
          = t.filter (fun p => decide (50 < p.volatility.getD 0)) := by
        rw [List.filter_cons, if_neg (by simpa using hc)]
      rw [h1, h2, ih]

/-- C4 (refuting the claim): a position holding exactly 40% of the total
value receives no concentration warning — the source tests `weight > 40`
strictly, so the claim's "≥ 40%" fails at the boundary. -/
theorem c4_forty_percent_no_warning :
    ¬ ∃ r ∈ generate_recommendations
        [⟨"A", 40, none⟩, ⟨"B", 60, none⟩] ⟨some 2, some 0⟩,
      r.kind = RecoKind.concentration "A" := by
  have hev : generate_recommendations [⟨"A", 40, none⟩, ⟨"B", 60, none⟩] ⟨some 2, some 0⟩
      = [⟨"warning", RecoKind.concentration "B", "high"⟩,
         ⟨"warning", RecoKind.highMarketExposure, "high"⟩] := by
    rw [generate_recommendations, if_neg (by norm_num [totalRecValue])]
    rw [concLoop_eq, volLoop_eq]
    norm_num [totalRecValue]
  rw [hev]
  decide

/-- C4 amended: `generate_recommendations` emits, in this fixed order and
as independent non-exclusive checks: one high-priority concentration
warning per position whose weight is strictly greater than 40% of total
value, one medium-priority volatility notice per position with volatility
strictly above 50, a low-priority balanced-exposure success note when beta
lies in [0.9, 1.3], a high-priority high-market-exposure warning when beta
exceeds 1.5, and a low-priority success note when the Sharpe ratio exceeds
1.0. -/
theorem c4_amended_recommendations (ps : List RecPosition) (m : PortfolioMetrics)
    (h : ps = [] ∨ totalRecValue ps ≠ 0) :
    generate_recommendations ps m
      = (ps.filter (fun p => decide (40 < p.total_value / totalRecValue ps * 100))).map
          (fun p => ⟨"warning", RecoKind.concentration p.symbol, "high"⟩)
        ++ (ps.filter (fun p => decide (50 < p.volatility.getD 0))).map
          (fun p => ⟨"info", RecoKind.highVolatility p.symbol, "medium"⟩)
        ++ (if 9 / 10 ≤ m.beta.getD 1 ∧ m.beta.getD 1 ≤ 13 / 10 then
              [⟨"success", RecoKind.balancedExposure, "low"⟩]
            else if 3 / 2 < m.beta.getD 1 then
              [⟨"warning", RecoKind.highMarketExposure, "high"⟩]
            else [])
        ++ (if 1 < m.sharpe_ratio.getD 0 then [⟨"success", RecoKind.goodSharpe, "low"⟩]
            else []) := by
  have hguard : ¬ (ps ≠ [] ∧ totalRecValue ps = 0) := by
    rcases h with rfl | h
    · intro hc; exact hc.1 rfl
    · intro hc; exact h hc.2
  rw [generate_recommendations, if_neg hguard]
  rw [concLoop_eq, volLoop_eq]
  by_cases hs : 1 < m.sharpe_ratio.getD 0
  · rw [if_pos hs, if_pos hs]
    by_cases hb : 9 / 10 ≤ m.beta.getD 1 ∧ m.beta.getD 1 ≤ 13 / 10
    · rw [if_pos hb, if_pos hb]
      simp [List.append_assoc]
    · rw [if_neg hb, if_neg hb]
      by_cases hb2 : 3 / 2 < m.beta.getD 1
      · rw [if_pos hb2, if_pos hb2]
        simp [List.append_assoc]
      · rw [if_neg hb2, if_neg hb2]
        simp [List.append_assoc]
  · rw [if_neg hs, if_neg hs]
    by_cases hb : 9 / 10 ≤ m.beta.getD 1 ∧ m.beta.getD 1 ≤ 13 / 10
    · rw [if_pos hb, if_pos hb]
      simp [List.append_assoc]
    · rw [if_neg hb, if_neg hb]
      by_cases hb2 : 3 / 2 < m.beta.getD 1
      · rw [if_pos hb2, if_pos hb2]
        simp [List.append_assoc]
      · rw [if_neg hb2, if_neg hb2]
        simp [List.append_assoc]

/-- Witness for the amended C4: one 60% position with volatility 80, beta
1.0, Sharpe 2 — every check fires except the strict-threshold ones that
should not. -/
theorem c4_amended_recommendations_witness :
    generate_recommendations [⟨"A", 60, some 80⟩, ⟨"B", 40, none⟩] ⟨some 1, some 2⟩
      = (([⟨"A", 60, some 80⟩, ⟨"B", 40, none⟩] : List RecPosition).filter
            (fun p => decide (40 < p.total_value
              / totalRecValue [⟨"A", 60, some 80⟩, ⟨"B", 40, none⟩] * 100))).map
          (fun p => ⟨"warning", RecoKind.concentration p.symbol, "high"⟩)
        ++ (([⟨"A", 60, some 80⟩, ⟨"B", 40, none⟩] : List RecPosition).filter
            (fun p => decide (50 < p.volatility.getD 0))).map
          (fun p => ⟨"info", RecoKind.highVolatility p.symbol, "medium"⟩)
        ++ (if 9 / 10 ≤ (some (1 : ℚ)).getD 1 ∧ (some (1 : ℚ)).getD 1 ≤ 13 / 10 then
              [⟨"success", RecoKind.balancedExposure, "low"⟩]
            else if 3 / 2 < (some (1 : ℚ)).getD 1 then
              [⟨"warning", RecoKind.highMarketExposure, "high"⟩]
            else [])
        ++ (if 1 < (some (2 : ℚ)).getD 0 then [⟨"success", RecoKind.goodSharpe, "low"⟩]
            else []) :=
  c4_amended_recommendations [⟨"A", 60, some 80⟩, ⟨"B", 40, none⟩] ⟨some 1, some 2⟩
    (Or.inr (by norm_num [totalRecValue]))

theorem lastKnown_append_one (src : List (Nat × ℚ)) (ds : List Nat) (d : Nat) (dflt : ℚ) :
    lastKnown src (ds ++ [d]) dflt = (assocGet src d).getD (lastKnown src ds dflt) := by
  unfold lastKnown
  rw [List.foldl_append]
  rfl

theorem walkCmp_eq_specWalk (src : List (Nat × ℚ)) (init : ℚ) :
    ∀ (fh : List (Nat × ℚ)) (processed : List Nat) (last : ℚ),
      lastKnown src processed 0 = last →
      walkCmp src init last fh = specWalk src init processed fh := by
  intro fh
  induction fh with
  | nil => intro _ _ _; rfl
  | cons q t ih =>
    intro processed last hlk
    have hstep := lastKnown_append_one src processed q.1 0
    rcases hq : assocGet src q.1 with _ | v
    · have hw : walkCmp src init last (q :: t)
          = (q.1, pyRound2 last, pyRound2 ((q.2 - init) / init * 100))
            :: walkCmp src init last t := by
        simp only [walkCmp]
        rw [hq]
      have hs : specWalk src init processed (q :: t)
          = (q.1, pyRound2 (lastKnown src (processed ++ [q.1]) 0),
              pyRound2 ((q.2 - init) / init * 100))
            :: specWalk src init (processed ++ [q.1]) t := by
        simp only [specWalk]
      have hcarry : lastKnown src (processed ++ [q.1]) 0 = last := by
        rw [hstep, hq, Option.getD_none, hlk]
      rw [hw, hs, hcarry]
      exact congrArg _ (ih (processed ++ [q.1]) last hcarry)
    · have hw : walkCmp src init last (q :: t)
          = (q.1, pyRound2 v, pyRound2 ((q.2 - init) / init * 100))
            :: walkCmp src init v t := by
        simp only [walkCmp]
        rw [hq]
      have hs : specWalk src init processed (q :: t)
          = (q.1, pyRound2 (lastKnown src (processed ++ [q.1]) 0),
              pyRound2 ((q.2 - init) / init * 100))
            :: specWalk src init (processed ++ [q.1]) t := by
        simp only [specWalk]
      have hcarry : lastKnown src (processed ++ [q.1]) 0 = v := by
        rw [hstep, hq, Option.getD_some]
      rw [hw, hs, hcarry]
      exact congrArg _ (ih (processed ++ [q.1]) v hcarry)

theorem walkCmp_dates (src : List (Nat × ℚ)) (init : ℚ) :
    ∀ (fh : List (Nat × ℚ)) (last : ℚ),
      (walkCmp src init last fh).map (fun e => e.1) = fh.map Prod.fst := by
  intro fh
  induction fh with
  | nil => intro _; rfl
  | cons q t ih =>
    intro last
    rcases hq : assocGet src q.1 with _ | v
    · have hw : walkCmp src init last (q :: t)
          = (q.1, pyRound2 last, pyRound2 ((q.2 - init) / init * 100))
            :: walkCmp src init last t := by
        simp only [walkCmp]
        rw [hq]
      rw [hw, List.map_cons, ih last, List.map_cons]
    · have hw : walkCmp src init last (q :: t)
          = (q.1, pyRound2 v, pyRound2 ((q.2 - init) / init * 100))
            :: walkCmp src init v t := by
        simp only [walkCmp]
        rw [hq]
      rw [hw, List.map_cons, ih v, List.map_cons]

/-- C5 (refuting the claim): `compare_with_index` does not walk all of the
index's own trading dates — the index history is first restricted to the
portfolio's [first, last] date range.  With portfolio = [(day 10, 5%)] and
index days 5 and 10, the output covers only day 10, and day 5 is omitted
(not reported as 0.0). -/
theorem c5_not_all_index_dates :
    ¬ ((compare_with_index [(10, 5)] [(5, 100), (10, 110)]).map (fun e => e.1)
        = ([((5 : Nat), (100 : ℚ)), (10, 110)]).map Prod.fst) := by
  have hwin : idxWindow [((10 : Nat), (5 : ℚ))] [((5 : Nat), (100 : ℚ)), (10, 110)]
      = [(10, 110)] := by
    simp [idxWindow]
  have hev : (compare_with_index [(10, 5)] [(5, 100), (10, 110)]).map (fun e => e.1)
      = [10] := by
    have h1 : compare_with_index [(10, 5)] [(5, 100), (10, 110)]
        = (match idxWindow [((10 : Nat), (5 : ℚ))] [((5 : Nat), (100 : ℚ)), (10, 110)] with
           | [] => []
           | h0 :: hs => if h0.2 ≤ 0 then []
              else walkCmp [((10 : Nat), (5 : ℚ))] h0.2 0 (h0 :: hs)) := by
      simp only [compare_with_index]
    rw [h1, hwin]
    show (if ((110 : ℚ)) ≤ 0 then []
        else walkCmp [((10 : Nat), (5 : ℚ))] 110 0 [(10, 110)]).map (fun e => e.1) = [10]
    rw [if_neg (by norm_num)]
    rw [walkCmp_dates]
    rfl
  rw [hev]
  decide

/-- C5 amended: `compare_with_index` walks exactly the index's trading
dates inside the portfolio's [first, last] date window; each walked date
reports the portfolio's percent for that exact date when present,
otherwise the percent of the most recent previously walked date that had
one — carried forward, never interpolated and never omitted — and 0.0
when no previously walked date matched. -/
theorem c5_amended_carry_forward (P H : List (Nat × ℚ)) (hP : P ≠ [])
    (h0 : Nat × ℚ) (hs : List (Nat × ℚ)) (hf : idxWindow P H = h0 :: hs)
    (hpos : 0 < h0.2) :
    compare_with_index P H = specWalk P h0.2 [] (h0 :: hs) ∧
    (compare_with_index P H).map (fun e => e.1) = (idxWindow P H).map Prod.fst := by
  obtain ⟨p0, ps, rfl⟩ := List.exists_cons_of_ne_nil hP
  have hcmp : compare_with_index (p0 :: ps) H = walkCmp (p0 :: ps) h0.2 0 (h0 :: hs) := by
    have h1 : compare_with_index (p0 :: ps) H
        = (match idxWindow (p0 :: ps) H with
           | [] => []
           | h0 :: hs => if h0.2 ≤ 0 then [] else walkCmp (p0 :: ps) h0.2 0 (h0 :: hs)) := by
      simp only [compare_with_index]
    rw [h1, hf]
    show (if h0.2 ≤ 0 then [] else walkCmp (p0 :: ps) h0.2 0 (h0 :: hs))
        = walkCmp (p0 :: ps) h0.2 0 (h0 :: hs)
    rw [if_neg (not_le.mpr hpos)]
  constructor
  · rw [hcmp]
    exact walkCmp_eq_specWalk _ _ _ [] 0 rfl
  · rw [hcmp, hf, walkCmp_dates]

/-- Witness for the amended C5: portfolio on days 0 and 2, index trading
on days 0, 1, 2 — day 1 carries day 0's percent forward. -/
theorem c5_amended_carry_forward_witness :
    compare_with_index [((0 : Nat), (0 : ℚ)), (2, 5)] [((0 : Nat), (100 : ℚ)), (1, 110), (2, 120)]
        = specWalk [((0 : Nat), (0 : ℚ)), (2, 5)] 100 []
            [((0 : Nat), (100 : ℚ)), (1, 110), (2, 120)] ∧
    (compare_with_index [((0 : Nat), (0 : ℚ)), (2, 5)]
        [((0 : Nat), (100 : ℚ)), (1, 110), (2, 120)]).map (fun e => e.1)
      = (idxWindow [((0 : Nat), (0 : ℚ)), (2, 5)]
          [((0 : Nat), (100 : ℚ)), (1, 110), (2, 120)]).map Prod.fst :=
  c5_amended_carry_forward [((0 : Nat), (0 : ℚ)), (2, 5)]
    [((0 : Nat), (100 : ℚ)), (1, 110), (2, 120)]
    (by decide) ((0 : Nat), (100 : ℚ)) [((1 : Nat), (110 : ℚ)), (2, 120)]
    (by simp [idxWindow]) (by norm_num)

end PortfolioHub
